import Mathlib

/-!
A shallow embedding of the company-discovery engine in
`src/scrapers/company_discovery_v3.py` and of the name-cleaning helpers in
`src/processors/entity_extraction.py`, together with theorems settling the
specification claims about them.

Strings are modelled as their `List Char` code-point sequences (Python `len`,
slicing and comparison all operate on code points).  The regular expressions
appearing in the source are fixed and simple (literals, `\s`, `\s*`, `.*`,
`\b`, `^`, `$`, case-insensitive), so they are embedded by a small executable
matcher over exactly those constructs.  HTTP fetching and HTML parsing are
externals: a fetched page is modelled as the tuple of query results the
scraper extracts from it (anchor texts/hrefs, container texts, job links, RSS
items), and the network is a function from URL to an optional response,
`none` standing for a raised requests exception.
-/

namespace SaasSignal

/-- ASCII model of the whitespace class shared by Python's `str.strip`,
`str.split` and the regex class `\s`. -/
def isPySpace (c : Char) : Bool :=
  c == ' ' || c == '\t' || c == '\n' || c == '\r' || c == '\x0b' || c == '\x0c'

def isAsciiAlpha (c : Char) : Bool :=
  ('A' ≤ c && c ≤ 'Z') || ('a' ≤ c && c ≤ 'z')

def isAsciiDigit (c : Char) : Bool := '0' ≤ c && c ≤ '9'

def isAsciiAlnum (c : Char) : Bool := isAsciiAlpha c || isAsciiDigit c

/-- Word characters for the regex `\b` boundary (`[A-Za-z0-9_]`). -/
def isWordChar (c : Char) : Bool := isAsciiAlnum c || c == '_'

/-- Uppercase/lowercase ASCII letter table backing the model of `str.lower`. -/
def upLow : List (Char × Char) :=
  [('A', 'a'), ('B', 'b'), ('C', 'c'), ('D', 'd'), ('E', 'e'), ('F', 'f'),
   ('G', 'g'), ('H', 'h'), ('I', 'i'), ('J', 'j'), ('K', 'k'), ('L', 'l'),
   ('M', 'm'), ('N', 'n'), ('O', 'o'), ('P', 'p'), ('Q', 'q'), ('R', 'r'),
   ('S', 's'), ('T', 't'), ('U', 'u'), ('V', 'v'), ('W', 'w'), ('X', 'x'),
   ('Y', 'y'), ('Z', 'z')]

/-- ASCII model of Python `str.lower` on one character. -/
def lowerChar (c : Char) : Char :=
  match upLow.lookup c with
  | some d => d
  | none => c

def lowerL (s : List Char) : List Char := s.map lowerChar

def lowerS (s : String) : String := ⟨lowerL s.data⟩

/-- Python `str.strip()`: drop leading and trailing whitespace. -/
def stripL (s : List Char) : List Char :=
  ((s.dropWhile isPySpace).reverse.dropWhile isPySpace).reverse

def pystrip (s : String) : String := ⟨stripL s.data⟩

/-- Python `str.split()` (no argument): split on whitespace runs, dropping
empty pieces.  Accumulator-structured so that it reduces in the kernel. -/
def splitWsAux : List Char → List Char → List (List Char)
  | [], acc => if acc.isEmpty then [] else [acc.reverse]
  | c :: rest, acc =>
    if isPySpace c then
      if acc.isEmpty then splitWsAux rest [] else acc.reverse :: splitWsAux rest []
    else splitWsAux rest (c :: acc)

def splitWs (s : List Char) : List (List Char) := splitWsAux s []

/-- Python `" ".join(words)`. -/
def joinWords : List (List Char) → List Char
  | [] => []
  | [w] => w
  | w :: ws => w ++ ' ' :: joinWords ws

/-- `" ".join(s.split())`, and equally `re.sub(r'\s+', ' ', s.strip())`:
collapse whitespace runs to single spaces and trim the ends. -/
def collapseL (s : List Char) : List Char := joinWords (splitWs s)

def collapseS (s : String) : String := ⟨collapseL s.data⟩

def listStartsWith : List Char → List Char → Bool
  | [], _ => true
  | _ :: _, [] => false
  | p :: ps, c :: cs => p == c && listStartsWith ps cs

/-- Case-insensitive prefix test; the pattern is stored lowercase. -/
def listStartsWithCI : List Char → List Char → Bool
  | [], _ => true
  | _ :: _, [] => false
  | p :: ps, c :: cs => p == lowerChar c && listStartsWithCI ps cs

/-- Python's `pat in s` substring test. -/
def listHasSub (pat : List Char) : List Char → Bool
  | [] => pat.isEmpty
  | c :: rest => listStartsWith pat (c :: rest) || listHasSub pat rest

def containsSub (hay pat : String) : Bool := listHasSub pat.data hay.data

/-! ### A matcher for the fixed regular expressions of the source

Tokens cover exactly the constructs used by `_is_valid_company_name` and the
extraction regexes: case-insensitive literals, `\s`, `\s*`, `.*`, `\b`, and
the `^`/`$` anchors (`^` as the `anchored` flag, `$` as a token). -/

inductive RTok where
  | lit (c : Char)
  | ws
  | wsStar
  | dotStar
  | wordB
  | atEnd
deriving DecidableEq

/-- Positions reachable by consuming zero or more whitespace characters,
paired with the character preceding each position. -/
def wsSuffixes (prev : Option Char) : List Char → List (Option Char × List Char)
  | [] => [(prev, [])]
  | c :: cs =>
    if isPySpace c then (prev, c :: cs) :: wsSuffixes (some c) cs
    else [(prev, c :: cs)]

/-- All positions of a string, with the character preceding each. -/
def allSuffixes (prev : Option Char) : List Char → List (Option Char × List Char)
  | [] => [(prev, [])]
  | c :: cs => (prev, c :: cs) :: allSuffixes (some c) cs

/-- Positions reachable by consuming zero or more non-newline characters
(the Python `.` does not match a newline). -/
def dotSuffixes (prev : Option Char) : List Char → List (Option Char × List Char)
  | [] => [(prev, [])]
  | c :: cs =>
    if c == '\n' then [(prev, c :: cs)]
    else (prev, c :: cs) :: dotSuffixes (some c) cs

def optWord : Option Char → Bool
  | none => false
  | some c => isWordChar c

def headOpt : List Char → Option Char
  | [] => none
  | c :: _ => some c

/-- Does the token list match a prefix of `cs`?  `prev` is the character just
before the current position (for `\b`).  Matching is existential, which is all
`re.search` truthiness needs. -/
def rmatch : List RTok → Option Char → List Char → Bool
  | [], _, _ => true
  | .lit _ :: _, _, [] => false
  | .lit p :: ts, _, c :: cs => p == lowerChar c && rmatch ts (some c) cs
  | .ws :: _, _, [] => false
  | .ws :: ts, _, c :: cs => isPySpace c && rmatch ts (some c) cs
  | .wsStar :: ts, prev, cs => (wsSuffixes prev cs).any fun pc => rmatch ts pc.1 pc.2
  | .dotStar :: ts, prev, cs => (dotSuffixes prev cs).any fun pc => rmatch ts pc.1 pc.2
  | .wordB :: ts, prev, cs => (optWord prev != optWord (headOpt cs)) && rmatch ts prev cs
  | .atEnd :: ts, prev, cs => cs.isEmpty && rmatch ts prev cs

structure RPat where
  anchored : Bool
  toks : List RTok

/-- `re.search(pat, s)` truthiness (with `re.IGNORECASE`). -/
def rsearch (p : RPat) (s : List Char) : Bool :=
  if p.anchored then rmatch p.toks none s
  else (allSuffixes none s).any fun pc => rmatch p.toks pc.1 pc.2

/-- Literal tokens of a (lowercase) string. -/
def lits (s : String) : List RTok := s.data.map RTok.lit

/-- The `invalid_patterns` list of `_is_valid_company_name`, pattern by
pattern and in source order. -/
def invalidPatterns : List RPat :=
  [⟨false, [.wordB] ++ lits "tosign" ++ [.wordB]⟩,
   ⟨false, [.wordB] ++ lits "inorcreate" ++ [.wordB]⟩,
   ⟨false, [.wordB] ++ lits "account" ++ [.wordB, .dotStar, .wordB] ++ lits "save" ++ [.wordB]⟩,
   ⟨true, [.lit 'e', .ws]⟩,
   ⟨true, [.lit 'e', .atEnd]⟩,
   ⟨false, lits "need" ++ [.wsStar] ++ lits "to"⟩,
   ⟨false, lits "sign" ++ [.wsStar] ++ lits "in"⟩,
   ⟨false, lits "create" ++ [.wsStar] ++ lits "an"⟩,
   ⟨false, lits "post" ++ [.wsStar] ++ lits "a" ++ [.wsStar] ++ lits "job"⟩,
   ⟨false, lits "apply" ++ [.wsStar] ++ lits "for"⟩,
   ⟨false, lits "maximum" ++ [.wsStar] ++ lits "exposure"⟩,
   ⟨true, lits "hiring" ++ [.wsStar] ++ lits "companies" ++ [.atEnd]⟩,
   ⟨true, lits "latest" ++ [.wsStar] ++ lits "news" ++ [.atEnd]⟩,
   ⟨false, lits "why" ++ [.wsStar] ++ lits "choose"⟩,
   ⟨false, lits "need" ++ [.dotStar] ++ lits "account"⟩,
   ⟨false, lits "you" ++ [.wsStar] ++ lits "need"⟩,
   ⟨false, lits "apply" ++ [.atEnd]⟩,
   ⟨true, lits "ed" ++ [.wsStar] ++ lits "today"⟩,
   ⟨true, lits "es" ++ [.wsStar] ++ lits "to" ++ [.wsStar] ++ lits "apply"⟩,
   ⟨true, lits "terson" ++ [.ws]⟩,
   ⟨true, lits "ion" ++ [.ws]⟩,
   ⟨false, lits "see" ++ [.wsStar] ++ lits "wha" ++ [.atEnd]⟩,
   ⟨false, lits "description" ++ [.wsStar] ++ lits "see"⟩,
   ⟨false, lits "not" ++ [.wsStar] ++ lits "specified"⟩]

/-- The `generic_terms` blocklist of `_is_valid_company_name`. -/
def genericTerms : List String :=
  ["job", "apply", "save", "account", "login", "sign in",
   "post a job", "latest news", "hiring companies", "careers",
   "you need", "create an account", "maximum exposure",
   "ed today", "ed todayts", "ed todaysecret", "terson air force bas",
   "es to apply for maximum exposure", "ion engineer"]

/-- `_is_valid_company_name` of `company_discovery_v3.py`, check for check in
source order. -/
def is_valid_company_name (name : String) : Bool :=
  let cs := name.data
  if cs.length < 2 then false
  else if 100 < cs.length then false
  else if invalidPatterns.any (fun p => rsearch p cs) then false
  else if !cs.any isAsciiAlpha then false
  else if genericTerms.any (fun t => t == pystrip (lowerS name)) then false
  else
    match cs with
    | [] => false
    | c :: _ => isAsciiAlnum c

/-! ### Suffix / parenthetical / article stripping

`re.sub` with each of the source's `$`-anchored patterns removes at most one
match: the maximal trailing whitespace run followed by the suffix word (or the
parenthetical group).  The substitutions are embedded accordingly. -/

/-- Flattened, lowercase alternatives of the `entity_extraction.py` suffix
pattern `\s+(Inc\.?|LLC|Ltd\.?|Corp\.?|Corporation|Co\.?|Company)$`. -/
def eeSuffixAlts : List (List Char) :=
  ["inc.", "inc", "llc", "ltd.", "ltd", "corp.", "corp", "corporation",
   "co.", "co", "company"].map String.data

/-- Lowercase alternatives of the `company_discovery_v3.py` pattern
`\s+(Inc\.|LLC|Corp|Corporation|Ltd|Limited|Co\.)$`. -/
def v3SuffixAlts : List (List Char) :=
  ["inc.", "llc", "corp", "corporation", "ltd", "limited", "co."].map String.data

/-- On the reversed string, find a trailing suffix alternative preceded by at
least one whitespace character; return the remainder (still reversed, still
carrying the whitespace run). -/
def altsFind : List (List Char) → List Char → Option (List Char)
  | [], _ => none
  | alt :: alts, r =>
    if listStartsWithCI alt.reverse r then
      match r.drop alt.length with
      | c :: rest => if isPySpace c then some (c :: rest) else altsFind alts r
      | [] => altsFind alts r
    else altsFind alts r

/-- `re.sub(r'\s+(alt1|...|altN)$', '', s, flags=IGNORECASE)`. -/
def stripOneSuffix (alts : List (List Char)) (s : List Char) : List Char :=
  match altsFind alts s.reverse with
  | some rest => (rest.dropWhile isPySpace).reverse
  | none => s

/-- The tail after a candidate `(` consists of one or more non-`)` characters
followed by a final `)` that ends the string. -/
def parenBodyOk (r : List Char) : Bool :=
  match r.getLast? with
  | some ')' => !r.dropLast.isEmpty && r.dropLast.all (fun c => c != ')')
  | _ => false

/-- Is the current character a `(` that is preceded by whitespace and opens a
trailing parenthetical? -/
def parenCutHere (c : Char) (revPre rest : List Char) : Bool :=
  c == '(' &&
    (match revPre with
     | p :: _ => isPySpace p
     | [] => false) &&
    parenBodyOk rest

/-- Scan left to right for the first `(` opening a trailing parenthetical;
cut just before its whitespace run.  `revPre` is the reversed prefix already
scanned. -/
def stripParenAux : List Char → List Char → Option (List Char)
  | _, [] => none
  | revPre, c :: rest =>
    if parenCutHere c revPre rest then some (revPre.dropWhile isPySpace).reverse
    else stripParenAux (c :: revPre) rest

/-- `re.sub(r'\s+\([^)]+\)$', '', s)`. -/
def stripParen (s : List Char) : List Char := (stripParenAux [] s).getD s

def articleWords : List (List Char) := ["the", "a", "an"].map String.data

/-- `re.sub(r'^(The|A|An)\s+', '', s, flags=IGNORECASE)`. -/
def stripArticle (s : List Char) : List Char :=
  match articleWords.findSome? (fun a =>
    if listStartsWithCI a s then
      match s.drop a.length with
      | c :: rest => if isPySpace c then some ((c :: rest).dropWhile isPySpace) else none
      | [] => none
    else none) with
  | some r => r
  | none => s

/-- `clean_company_name` of `src/processors/entity_extraction.py`: suffix
substitution, parenthetical substitution, whitespace collapse, leading-article
removal, final strip.  Always returns a string. -/
def clean_company_name (s : String) : String :=
  ⟨stripL (stripArticle (collapseL (stripParen (stripOneSuffix eeSuffixAlts s.data))))⟩

/-- `normalize_company_name` of `src/processors/entity_extraction.py`:
lowercase, strip, the two substitutions, whitespace collapse. -/
def normalize_company_name (s : String) : String :=
  ⟨collapseL (stripParen (stripOneSuffix eeSuffixAlts (stripL (lowerL s.data))))⟩

/-- The suffix-stripped-and-stripped core of `_clean_company_name` of
`company_discovery_v3.py`. -/
def v3CleanCore (s : String) : List Char :=
  stripL (stripOneSuffix v3SuffixAlts s.data)

/-- `_clean_company_name` of `company_discovery_v3.py`: strip one trailing
legal suffix, strip whitespace, and return `None` when at most one character
remains. -/
def clean_company_name_v3 (s : String) : Option String :=
  if 1 < (v3CleanCore s).length then some ⟨v3CleanCore s⟩ else none

/-- Modelled from the spec (§4.2 and claim C9): a single `clean` that strips
the legal-entity suffixes (Inc., LLC, Corp., Ltd., Co.) and trailing
parenthetical annotations, collapses whitespace, drops a leading article, and
returns null exactly when the result has length at most 1.  No function of
the repository behaves like this; it exists to be compared with the two code
cleaners. -/
def cleanSpec (s : String) : Option String :=
  let specAlts := ["inc.", "llc", "corp.", "ltd.", "co."].map String.data
  let n := stripL (stripArticle (collapseL (stripParen (stripOneSuffix specAlts s.data))))
  if n.length ≤ 1 then none else some ⟨n⟩

/-! ### Data model: signals, records, registry

`self.companies` is a Python dict keyed by the (cleaned, case-preserving)
display name; dicts preserve insertion order, so it is embedded as an
association list with new keys appended at the end. -/

structure JobSignal where
  title : String
  source : String
  url : String
  location : String
  postedDate : Option String
deriving DecidableEq

structure PostSignal where
  title : String
  url : String
  publishedAt : String
  source : String
deriving DecidableEq

structure CompanyRecord where
  hiring : List JobSignal
  conversations : List PostSignal
deriving DecidableEq

abbrev Registry : Type := List (String × CompanyRecord)

def emptyRecord : CompanyRecord := { hiring := [], conversations := [] }

def regFind : Registry → String → Option CompanyRecord
  | [], _ => none
  | (k, v) :: rest, name => if k = name then some v else regFind rest name

/-- `if name not in self.companies: self.companies[name] = {'hiring': [], 'conversations': []}` -/
def regEnsure (reg : Registry) (name : String) : Registry :=
  match regFind reg name with
  | some _ => reg
  | none => reg ++ [(name, emptyRecord)]

/-- `self.companies[name]['hiring'].append(job)` -/
def regAppendJob (reg : Registry) (name : String) (j : JobSignal) : Registry :=
  reg.map fun p =>
    if p.1 = name then (p.1, { p.2 with hiring := p.2.hiring ++ [j] }) else p

/-- `self.companies[name]['conversations'].append(post)` -/
def regAppendPost (reg : Registry) (name : String) (po : PostSignal) : Registry :=
  reg.map fun p =>
    if p.1 = name then (p.1, { p.2 with conversations := p.2.conversations ++ [po] }) else p

/-- Number of hiring entries currently stored for a key. -/
def hiringCount (reg : Registry) (name : String) : Nat :=
  match regFind reg name with
  | some r => r.hiring.length
  | none => 0

/-! ### The Keyword-Search (Indeed) adapter, `_scrape_indeed`

A parsed job card is the tuple of query results the scraper reads from it:
the raw texts produced by the four extraction strategies (`data-testid`
element text, class-heuristic element text, `data-company-name` attribute,
regex capture over the card text), the title element text and the job link
href.  `none` means the corresponding element/attribute/match is absent. -/

structure Card where
  s1 : Option String
  s2 : Option String
  s3 : Option String
  s4 : Option String
  title : Option String
  href : Option String
deriving DecidableEq

/-- The ordered fallback chain of `_scrape_indeed`: each strategy's raw text
is cleaned by `_clean_company_name`; the chain moves on while `company_name`
is still falsy, i.e. the first strategy whose cleaned output is non-null
wins.  (Strategies 1 and 2 `.strip()` the element text before cleaning;
strategies 3 and 4 pass the raw value through.) -/
def extractCompanyV3 (c : Card) : Option String :=
  match (c.s1.map pystrip).bind clean_company_name_v3 with
  | some n => some n
  | none =>
    match (c.s2.map pystrip).bind clean_company_name_v3 with
    | some n => some n
    | none =>
      match c.s3.bind clean_company_name_v3 with
      | some n => some n
      | none => c.s4.bind clean_company_name_v3

/-- Modelled from the spec (§4.3, claim C3): the fallback chain described by
the specification, which takes the first strategy whose cleaned output the
Validator accepts.  It exists to be compared with `extractCompanyV3`. -/
def extractCompanySpec (c : Card) : Option String :=
  let accepted : Option String → Option String := fun o =>
    match o.bind clean_company_name_v3 with
    | some n => if is_valid_company_name n then some n else none
    | none => none
  match accepted (c.s1.map pystrip) with
  | some n => some n
  | none =>
    match accepted (c.s2.map pystrip) with
    | some n => some n
    | none =>
      match accepted c.s3 with
      | some n => some n
      | none => accepted c.s4

structure IndeedState where
  discovered : List String
  companies : Registry
deriving DecidableEq

/-- The per-card body of `_scrape_indeed`: extract, require a title element,
validate once, skip names already discovered in this invocation, otherwise
record the company and append one JobSignal.  `fb` is the keyword search URL
used when the card has no job link. -/
def stepIndeed (fb : String) (st : IndeedState) (c : Card) : IndeedState :=
  match extractCompanyV3 c, c.title with
  | some name, some t =>
    if is_valid_company_name name then
      if name ∈ st.discovered then st
      else
        { discovered := st.discovered ++ [name]
          companies :=
            regAppendJob (regEnsure st.companies name) name
              { title := pystrip t
                source := "Indeed"
                url := match c.href with
                       | some h => "https://www.indeed.com" ++ h
                       | none => fb
                location := "Various"
                postedDate := none } }
    else st
  | _, _ => st

/-- The card loop of `_scrape_indeed` (the `discovered` set persists across
the keyword pages of one invocation, so one run over the concatenated card
list models one invocation).  The budget is checked at the top of each
iteration, as in the source. -/
def runIndeedCards (fb : String) (m : Nat) : List Card → IndeedState → IndeedState
  | [], st => st
  | c :: cs, st =>
    if m ≤ st.discovered.length then st
    else runIndeedCards fb m cs (stepIndeed fb st c)

/-- One invocation of the card-processing part of `_scrape_indeed`, starting
from a fresh `discovered` set over an existing registry. -/
def scrapeIndeedCards (fb : String) (m : Nat) (cards : List Card) (reg : Registry) :
    IndeedState :=
  runIndeedCards fb m cards { discovered := [], companies := reg }

/-! ### Fetched pages and the network

A fetched page is the tuple of query results the scrapers extract from it.
The network is a function from URL to `Option Response`; `none` models a
raised `requests` exception (timeout, connection error), which every adapter
catches and turns into a skip. -/

structure Response where
  status : Nat
  finalUrl : String
  anchors : List (String × String)
  containerTexts : List String
  jobLinks : List (String × String)
  items : List (Option String × Option String × Option String)

abbrev Net : Type := String → Option Response

/-! ### The Portfolio-List adapter, `_scrape_vc_portfolios` -/

def vcSkipWords : List String :=
  ["twitter", "linkedin", "facebook", "instagram", "about", "team", "contact", "news"]

def vcFalsePositives : List String :=
  ["view all", "learn more", "read more", "see more", "portfolio", "companies"]

/-- `re.match(r'^[A-Za-z0-9\s\.\-&]+$', name)` truthiness. -/
def vcCharsOk (s : String) : Bool :=
  !s.data.isEmpty &&
    s.data.all fun c => isAsciiAlnum c || isPySpace c || c == '.' || c == '-' || c == '&'

/-- The `company_links` candidate list built from one portfolio page:
anchor texts passing the navigation/social filter and the 2..50 length check,
then container texts passing the 2..50 length check. -/
def vcCandidateTexts (r : Response) : List String :=
  (r.anchors.filterMap fun a =>
    if vcSkipWords.any (fun w => containsSub (lowerS a.2) w) then none
    else if 2 ≤ a.1.length && a.1.length ≤ 50 && !a.1.data.isEmpty
            && !listStartsWith ['#'] a.1.data then some a.1
    else none)
    ++ r.containerTexts.filter fun t => 2 ≤ t.length && t.length ≤ 50

/-- The clean-and-add loop over one page's candidates, with the budget break
placed after each `discovered.add`, as in the source. -/
def vcAddLoop (m : Nat) : List String → List String → List String
  | [], d => d
  | raw :: rest, d =>
    let name := collapseS (pystrip raw)
    if name.length < 2 || !vcCharsOk name then vcAddLoop m rest d
    else if vcFalsePositives.any (fun t => t == lowerS name) then vcAddLoop m rest d
    else
      let d2 := if name ∈ d then d else d ++ [name]
      if m ≤ d2.length then d2 else vcAddLoop m rest d2

def vcPageLoop (env : Net) (m : Nat) : List (String × String) → List String → List String
  | [], d => d
  | (_, url) :: rest, d =>
    if m ≤ d.length then d
    else
      match env url with
      | none => vcPageLoop env m rest d
      | some r =>
        if r.status = 200 then vcPageLoop env m rest (vcAddLoop m (vcCandidateTexts r) d)
        else vcPageLoop env m rest d

/-- `_scrape_vc_portfolios`: its body reads, but never writes, the shared
registry — the returned registry is the input one, exactly as in the source,
where `self.companies` is not touched. -/
def scrape_vc_portfolios (env : Net) (m : Nat) (portfolios : List (String × String))
    (reg : Registry) : List String × Registry :=
  (vcPageLoop env m portfolios [], reg)

/-! ### The ATS-Direct-Probe adapter (Workday), `_scrape_workday_direct` -/

def wdKeywords : List String := ["security", "cyber", "infosec", "soc", "threat"]

/-- `re.sub(r'[^a-z0-9]+', '', name.lower())`. -/
def wdSlug (name : String) : String :=
  ⟨(lowerL name.data).filter fun c => ('a' ≤ c && c ≤ 'z') || isAsciiDigit c⟩

def wdUrls (slug : String) : List String :=
  ["https://" ++ slug ++ ".wd1.myworkdayjobs.com",
   "https://" ++ slug ++ ".wd5.myworkdayjobs.com",
   "https://" ++ slug ++ ".wd12.myworkdayjobs.com"]

/-- `urljoin` for the href shapes that occur here: absolute hrefs are kept,
relative ones are appended to the base. -/
def urljoinS (base href : String) : String :=
  if listStartsWith "http".data href.data then href else base ++ href

/-- Scan the first five job links of a Workday search page for a
security-keyword title; build the JobSignal for the first hit. -/
def wdFirstSecurityJob (base : String) : List (String × String) → Option JobSignal
  | [] => none
  | (text, href) :: rest =>
    if wdKeywords.any (fun k => containsSub (lowerS (pystrip text)) k) then
      some { title := pystrip text
             source := "Workday"
             url := urljoinS base href
             location := "Multiple Locations"
             postedDate := some "Recent" }
    else wdFirstSecurityJob base rest

/-- The inner URL-pattern loop of `_scrape_workday_direct`.  A request
exception moves to the next URL pattern; a valid Workday instance stops the
loop whether or not a security job is found (`break`); a failed search fetch
falls through to the next pattern. -/
def wdFindJob (env : Net) : List String → Option JobSignal
  | [] => none
  | u :: rest =>
    match env u with
    | none => wdFindJob env rest
    | some r =>
      if r.status = 200 ∧ containsSub (lowerS r.finalUrl) "workday" then
        match env (u ++ "/search") with
        | none => wdFindJob env rest
        | some jr =>
          if jr.status = 200 then wdFirstSecurityJob u (jr.jobLinks.take 5)
          else none
      else wdFindJob env rest

structure WdState where
  discovered : List String
  companies : Registry
deriving DecidableEq

def wdStep (env : Net) (st : WdState) (name : String) : WdState :=
  if (wdSlug name).data.isEmpty then st
  else
    match wdFindJob env (wdUrls (wdSlug name)) with
    | none => st
    | some j =>
      { discovered := if name ∈ st.discovered then st.discovered else st.discovered ++ [name]
        companies := regAppendJob (regEnsure st.companies name) name j }

def wdLoop (env : Net) (m : Nat) : List String → WdState → WdState
  | [], st => st
  | c :: cs, st =>
    if m ≤ st.discovered.length then st
    else wdLoop env m cs (wdStep env st c)

/-- `_scrape_workday_direct`: the seed list is the first 100 registry keys,
the discovered set starts empty, and the budget is checked at the top of each
seed iteration. -/
def scrape_workday_direct (env : Net) (m : Nat) (reg : Registry) : WdState :=
  wdLoop env m ((reg.map Prod.fst).take 100) { discovered := [], companies := reg }

/-! ### The RSS Conversation adapter, `_discover_conversation_signals` -/

def rssKeywords : List String :=
  ["security", "threat", "vulnerability", "attack", "breach",
   "ransomware", "malware", "phishing", "zero-day", "exploit",
   "cloud", "saas", "sspm", "iam", "compliance", "encryption"]

/-- The item loop over the first ten items of one feed.  An item is the
triple of its optional title, link and pubDate texts. -/
def rssItemLoop (publisher : String) (target : Nat) :
    List (Option String × Option String × Option String) → Nat → Registry → Nat × Registry
  | [], posts, reg => (posts, reg)
  | it :: rest, posts, reg =>
    if target ≤ posts then (posts, reg)
    else
      match it.1, it.2.1 with
      | some t, some l =>
        if rssKeywords.any (fun k => containsSub (lowerS (pystrip t)) k) then
          rssItemLoop publisher target rest (posts + 1)
            (regAppendPost (regEnsure reg publisher) publisher
              { title := pystrip t
                url := pystrip l
                publishedAt := (it.2.2).getD "Recent"
                source := "RSS Feed" })
        else rssItemLoop publisher target rest posts reg
      | _, _ => rssItemLoop publisher target rest posts reg

def rssFeedLoop (env : Net) (target : Nat) :
    List (String × String) → Nat → Registry → Nat × Registry
  | [], posts, reg => (posts, reg)
  | (pub, url) :: rest, posts, reg =>
    if target ≤ posts then (posts, reg)
    else
      match env url with
      | none => rssFeedLoop env target rest posts reg
      | some r =>
        if r.status = 200 then
          match rssItemLoop pub target (r.items.take 10) posts reg with
          | (p2, reg2) => rssFeedLoop env target rest p2 reg2
        else rssFeedLoop env target rest posts reg

/-- `_discover_conversation_signals`: returns the post count it reports and
the updated registry. -/
def discover_conversation_signals (env : Net) (target : Nat)
    (publishers : List (String × String)) (reg : Registry) : Nat × Registry :=
  rssFeedLoop env target publishers 0 reg

/-! ### The Tracker Builder, `_generate_company_tracker` -/

structure TrackerEntry where
  company_name : String
  activity_type : String
  role_count : Nat
  post_count : Nat
  priority_score : Nat
  last_updated : String
deriving DecidableEq

def mkTrackerEntry (today : String) (name : String) (d : CompanyRecord) : TrackerEntry :=
  let role_count := d.hiring.length
  let post_count := d.conversations.length
  if 0 < role_count ∧ 0 < post_count then
    ⟨name, "both", role_count, post_count, 3, today⟩
  else if 0 < role_count then
    ⟨name, "hiring_only", role_count, post_count, 2, today⟩
  else if 0 < post_count then
    ⟨name, "talking_only", role_count, post_count, 1, today⟩
  else
    ⟨name, "discovered", role_count, post_count, 0, today⟩

/-- Descending lexicographic comparison on
`(priority_score, role_count + post_count)`; non-strict so that insertion
keeps equal keys in their original order. -/
def trackerGe (a b : TrackerEntry) : Bool :=
  b.priority_score < a.priority_score ||
    (a.priority_score == b.priority_score &&
      b.role_count + b.post_count ≤ a.role_count + a.post_count)

def insertGe (x : TrackerEntry) : List TrackerEntry → List TrackerEntry
  | [] => [x]
  | y :: ys => if trackerGe x y then x :: y :: ys else y :: insertGe x ys

/-- Stable descending sort; Python's stable
`tracker.sort(key=lambda x: (priority, role+post), reverse=True)` produces
the same arrangement, since a stable sort under a total preorder is unique. -/
def sortTracker (l : List TrackerEntry) : List TrackerEntry :=
  l.foldr insertGe []

/-- `_generate_company_tracker` (the `last_updated` date is passed in for
purity). -/
def generate_company_tracker (today : String) (reg : Registry) : List TrackerEntry :=
  sortTracker (reg.map fun p => mkTrackerEntry today p.1 p.2)

/-! ### Concrete fixtures used by the counterexamples and witnesses -/

def fbDemo : String := "https://www.indeed.com/jobs?q=Security+Engineer&l="

/-- A job card whose company element reads "Acme Inc.". -/
def cardAcmeInc : Card :=
  { s1 := some "Acme Inc.", s2 := none, s3 := none, s4 := none,
    title := some "Security Engineer", href := some "/viewjob?jk=101" }

/-- A job card whose company element reads "acme". -/
def cardAcmeLower : Card :=
  { s1 := some "acme", s2 := none, s3 := none, s4 := none,
    title := some "SOC Analyst", href := none }

/-- A job card whose company element reads "Acme". -/
def cardAcmePlain : Card :=
  { s1 := some "Acme", s2 := none, s3 := none, s4 := none,
    title := some "Threat Analyst", href := none }

/-- A card on which the first strategy yields the Validator-rejected string
"Hiring Companies" while the third strategy would yield "Google". -/
def cardNoise : Card :=
  { s1 := some "Hiring Companies", s2 := none, s3 := some "Google", s4 := none,
    title := some "Security Engineer", href := none }

/-- One portfolio page carrying a single clean company anchor. -/
def envVcDemo : Net := fun u =>
  if u = "https://vc.example/portfolio" then
    some { status := 200, finalUrl := "https://vc.example/portfolio",
           anchors := [("Acme Security", "/companies/acme")],
           containerTexts := [], jobLinks := [], items := [] }
  else none

def vcPortsDemo : List (String × String) := [("TestVC", "https://vc.example/portfolio")]

/-- A network on which every fetch comes back with HTTP 500. -/
def env500 : Net := fun _ =>
  some { status := 500, finalUrl := "https://err.example/",
         anchors := [], containerTexts := [], jobLinks := [], items := [] }

def demoJob : JobSignal :=
  { title := "Security Engineer", source := "Indeed", url := "u",
    location := "Various", postedDate := none }

def demoPost : PostSignal :=
  { title := "Breach report", url := "u", publishedAt := "Recent", source := "RSS Feed" }

/-- Four records realising priority scores [3, 3, 2, 1] with combined volumes
[5, 10, 100, 1]. -/
def regFour : Registry :=
  [("C1", { hiring := List.replicate 4 demoJob, conversations := [demoPost] }),
   ("C2", { hiring := List.replicate 9 demoJob, conversations := [demoPost] }),
   ("C3", { hiring := List.replicate 100 demoJob, conversations := [] }),
   ("C4", { hiring := [], conversations := [demoPost] })]

/-- An Indeed state in which "Acme" has already been discovered. -/
def stMemDemo : IndeedState :=
  { discovered := ["Acme"], companies := [("Acme", { hiring := [demoJob], conversations := [] })] }

/-- String-level view of the entity extractor's suffix substitution, used to
state when `normalize_company_name` has reached a suffix-free form. -/
def eeStripSuffix (s : String) : String := ⟨stripOneSuffix eeSuffixAlts s.data⟩

/-- String-level view of the parenthetical substitution. -/
def eeStripParen (s : String) : String := ⟨stripParen s.data⟩

/-- Every character is fixed by lowercasing. -/
def AllLower (s : List Char) : Prop := ∀ c ∈ s, lowerChar c = c

/-- Every piece is a nonempty word without whitespace — the invariant of
`splitWs` output. -/
def WordsOK (L : List (List Char)) : Prop :=
  ∀ w ∈ L, w ≠ [] ∧ ∀ c ∈ w, isPySpace c = false

/-! ## Theorems

First the registry and adapter lemmas shared by several claims, then one
theorem (plus witness or counterexample where required) per claim. -/

theorem regFind_append (l1 l2 : Registry) (name : String) :
    regFind (l1 ++ l2) name =
      match regFind l1 name with
      | some v => some v
      | none => regFind l2 name := by
  induction l1 with
  | nil => rfl
  | cons p tl ih =>
    obtain ⟨k, v⟩ := p
    by_cases hk : k = name <;> simp [regFind, hk, ih]

theorem hiringCount_regEnsure (reg : Registry) (n name : String) :
    hiringCount (regEnsure reg n) name = hiringCount reg name := by
  unfold regEnsure
  cases h : regFind reg n with
  | some r => rfl
  | none =>
    unfold hiringCount
    rw [regFind_append]
    cases h2 : regFind reg name with
    | some r => rfl
    | none =>
      by_cases hn : n = name
      · subst hn; simp [regFind, h2, emptyRecord]
      · simp [regFind, hn, h2]

theorem regFind_regEnsure_self (reg : Registry) (n : String) :
    regFind (regEnsure reg n) n =
      some (match regFind reg n with
            | some r => r
            | none => emptyRecord) := by
  unfold regEnsure
  cases h : regFind reg n with
  | some r => simp [h]
  | none => rw [regFind_append]; simp [h, regFind]

theorem regFind_regAppendJob (reg : Registry) (n name : String) (j : JobSignal) :
    regFind (regAppendJob reg n j) name =
      (regFind reg name).map fun r =>
        if name = n then { r with hiring := r.hiring ++ [j] } else r := by
  induction reg with
  | nil => rfl
  | cons p tl ih =>
    obtain ⟨k, v⟩ := p
    show regFind
        ((if k = n then (k, { v with hiring := v.hiring ++ [j] }) else (k, v)) ::
          regAppendJob tl n j) name = _
    by_cases hn : k = n
    · subst hn
      rw [if_pos rfl]
      by_cases hk : k = name
      · subst hk; simp [regFind]
      · simp [regFind, hk, ih]
    · rw [if_neg hn]
      by_cases hk : k = name
      · subst hk; simp [regFind, hn]
      · simp [regFind, hk, ih]

/-- Net effect on a key's hiring count of the ensure-then-append pair every
adapter uses. -/
theorem hiringCount_upsert (reg : Registry) (n name : String) (j : JobSignal) :
    hiringCount (regAppendJob (regEnsure reg n) n j) name =
      if name = n then hiringCount reg name + 1 else hiringCount reg name := by
  unfold hiringCount
  rw [regFind_regAppendJob]
  by_cases hn : name = n
  · subst hn
    rw [regFind_regEnsure_self]
    cases h : regFind reg name <;> simp [h, emptyRecord]
  · have hthis := hiringCount_regEnsure reg n name
    unfold hiringCount at hthis
    cases h : regFind (regEnsure reg n) name with
    | none => rw [h] at hthis; simpa [hn] using hthis
    | some r => rw [h] at hthis; simpa [hn] using hthis

theorem stepIndeed_mem_preserve (fb : String) (st : IndeedState) (c : Card)
    (name : String) (h : name ∈ st.discovered) :
    hiringCount (stepIndeed fb st c).companies name = hiringCount st.companies name ∧
      name ∈ (stepIndeed fb st c).discovered := by
  cases hx : extractCompanyV3 c with
  | none => cases ht : c.title <;> simp [stepIndeed, hx, ht, h]
  | some n =>
    cases ht : c.title with
    | none => simp [stepIndeed, hx, ht, h]
    | some t =>
      by_cases hv : is_valid_company_name n
      · by_cases hd : n ∈ st.discovered
        · simp [stepIndeed, hx, ht, hv, hd, h]
        · have hne : name ≠ n := fun he => hd (he ▸ h)
          simp [stepIndeed, hx, ht, hv, hd, hiringCount_upsert, hne, h]
      · simp [stepIndeed, hx, ht, hv, h]

theorem stepIndeed_fresh (fb : String) (st : IndeedState) (c : Card)
    (name : String) (h : name ∉ st.discovered) :
    (hiringCount (stepIndeed fb st c).companies name = hiringCount st.companies name ∧
        name ∉ (stepIndeed fb st c).discovered) ∨
      (hiringCount (stepIndeed fb st c).companies name = hiringCount st.companies name + 1 ∧
        name ∈ (stepIndeed fb st c).discovered) := by
  cases hx : extractCompanyV3 c with
  | none => cases ht : c.title <;> exact Or.inl (by simp [stepIndeed, hx, ‹c.title = _›, h])
  | some n =>
    cases ht : c.title with
    | none => exact Or.inl (by simp [stepIndeed, hx, ht, h])
    | some t =>
      by_cases hv : is_valid_company_name n
      · by_cases hd : n ∈ st.discovered
        · exact Or.inl (by simp [stepIndeed, hx, ht, hv, hd, h])
        · by_cases hne : name = n
          · subst hne
            exact Or.inr (by simp [stepIndeed, hx, ht, hv, hd, hiringCount_upsert])
          · exact Or.inl (by simp [stepIndeed, hx, ht, hv, hd, hiringCount_upsert, hne, h])
      · exact Or.inl (by simp [stepIndeed, hx, ht, hv, h])

theorem runIndeedCards_inv (fb : String) (m : Nat) (name : String) :
    ∀ (cards : List Card) (st : IndeedState),
      (name ∈ st.discovered →
        hiringCount (runIndeedCards fb m cards st).companies name =
          hiringCount st.companies name) ∧
      (name ∉ st.discovered →
        hiringCount (runIndeedCards fb m cards st).companies name ≤
          hiringCount st.companies name + 1) := by
  intro cards
  induction cards with
  | nil => intro st; constructor <;> intro _ <;> simp [runIndeedCards]
  | cons c cs ih =>
    intro st
    constructor
    · intro hmem
      simp only [runIndeedCards]
      split
      · rfl
      · obtain ⟨heq, hmem2⟩ := stepIndeed_mem_preserve fb st c name hmem
        rw [(ih (stepIndeed fb st c)).1 hmem2, heq]
    · intro hmem
      simp only [runIndeedCards]
      split
      · omega
      · rcases stepIndeed_fresh fb st c name hmem with ⟨heq, hout⟩ | ⟨heq, hin⟩
        · have := (ih (stepIndeed fb st c)).2 hout
          omega
        · have := (ih (stepIndeed fb st c)).1 hin
          omega

/-- Claim C10: within one invocation of the Keyword-Search (Indeed) adapter at
most one JobSignal is appended per distinct company name — from any starting
registry the hiring count of any key grows by at most one, and once a name is
in the invocation's discovered set, later cards carrying it append nothing. -/
theorem indeed_one_job_per_company :
    (∀ (fb : String) (m : Nat) (cards : List Card) (reg : Registry) (name : String),
        hiringCount (scrapeIndeedCards fb m cards reg).companies name ≤
          hiringCount reg name + 1) ∧
    (∀ (fb : String) (m : Nat) (cards : List Card) (st : IndeedState) (name : String),
        name ∈ st.discovered →
          hiringCount (runIndeedCards fb m cards st).companies name =
            hiringCount st.companies name) := by
  constructor
  · intro fb m cards reg name
    simpa [scrapeIndeedCards] using
      (runIndeedCards_inv fb m name cards { discovered := [], companies := reg }).2 (by simp)
  · intro fb m cards st name h
    exact (runIndeedCards_inv fb m name cards st).1 h

theorem indeed_one_job_per_company_witness :
    hiringCount (scrapeIndeedCards fbDemo 400 [cardAcmeInc, cardAcmeLower] []).companies
        "Acme" ≤ hiringCount ([] : Registry) "Acme" + 1 ∧
      hiringCount (runIndeedCards fbDemo 400 [cardAcmePlain] stMemDemo).companies "Acme" =
        hiringCount stMemDemo.companies "Acme" :=
  ⟨indeed_one_job_per_company.1 fbDemo 400 [cardAcmeInc, cardAcmeLower] [] "Acme",
   indeed_one_job_per_company.2 fbDemo 400 [cardAcmePlain] stMemDemo "Acme" (by decide)⟩

/-- Claim C1 (counterexample): upserting one job under "Acme Inc." and one
under "acme" leaves two records, keyed "Acme" and "acme", with one hiring
entry each — not one record with two entries, because `_clean_company_name`
strips suffixes but never lowercases. -/
theorem dedup_key_counterexample :
    ((scrapeIndeedCards fbDemo 400 [cardAcmeInc, cardAcmeLower] []).companies.map
        fun p => (p.1, p.2.hiring.length)) = [("Acme", 1), ("acme", 1)] ∧
      (scrapeIndeedCards fbDemo 400 [cardAcmeInc, cardAcmeLower] []).companies.length ≠ 1 := by
  decide

/-- Claim C1 (amended): deduplication is by the cleaned, case-preserving
display name — two upserts whose names clean to the same string ("Acme Inc."
and then "Acme", in separate adapter invocations over the shared registry)
land in one CompanyRecord with 2 hiring entries. -/
theorem dedup_by_cleaned_name_amended :
    ((scrapeIndeedCards fbDemo 400 [cardAcmePlain]
          (scrapeIndeedCards fbDemo 400 [cardAcmeInc] []).companies).companies.map
        fun p => (p.1, p.2.hiring.length)) = [("Acme", 2)] := by
  decide

/-- Claim C2: the Portfolio-List adapter returns a discovered company whose
key is absent from the shared registry when the call returns —
`_scrape_vc_portfolios` never writes `self.companies`, although the
tracker's dead `'discovered'` branch expects such records to exist. -/
theorem vc_discover_leaves_registry_empty :
    scrape_vc_portfolios envVcDemo 200 vcPortsDemo [] = (["Acme Security"], []) ∧
      regFind (scrape_vc_portfolios envVcDemo 200 vcPortsDemo []).2 "Acme Security" = none := by
  decide

/-- Claim C3 (counterexample): on a card whose first strategy yields the
Validator-rejected "Hiring Companies" while the third strategy would yield
"Google", the code's chain stops at "Hiring Companies", the spec's chain
would return "Google", and the card is dropped without any registry write. -/
theorem fallback_chain_counterexample :
    extractCompanyV3 cardNoise = some "Hiring Companies" ∧
      is_valid_company_name "Hiring Companies" = false ∧
      extractCompanySpec cardNoise = some "Google" ∧
      stepIndeed fbDemo { discovered := [], companies := [] } cardNoise =
        { discovered := [], companies := [] } := by
  decide

/-- Claim C3 (amended): the chain takes the first strategy whose cleaned
output is non-null, without consulting the Validator between strategies; the
Validator is applied once to that single candidate, and if it rejects it the
card is skipped entirely — later strategies are never tried. -/
theorem fallback_chain_validator_gate_amended (fb : String) (st : IndeedState)
    (c : Card) (n : String) (hx : extractCompanyV3 c = some n)
    (hv : is_valid_company_name n = false) : stepIndeed fb st c = st := by
  cases ht : c.title with
  | none => simp [stepIndeed, hx, ht]
  | some t => simp [stepIndeed, hx, ht, hv]

theorem fallback_chain_validator_gate_witness :
    stepIndeed fbDemo stMemDemo cardNoise = stMemDemo :=
  fallback_chain_validator_gate_amended fbDemo stMemDemo cardNoise "Hiring Companies"
    (by decide) (by decide)

/-- Claim C5: on records with priority scores [3, 3, 2, 1] and combined
volumes [5, 10, 100, 1], the tracker orders the second 3-score record first,
then the first 3-score record, then the 2-score record (priority dominating
its volume of 100), then the 1-score record. -/
theorem tracker_ordering_priority_dominates :
    ((generate_company_tracker "2026-10-12" regFour).map
        fun e => (e.company_name, e.priority_score, e.role_count + e.post_count)) =
      [("C2", 3, 10), ("C1", 3, 5), ("C3", 2, 100), ("C4", 1, 1)] ∧
      ((generate_company_tracker "2026-10-12" regFour).map fun e => e.activity_type) =
        ["both", "both", "hiring_only", "talking_only"] := by
  decide

/-- Claim C8: the Validator rejects the three fixed noise strings and accepts
the three fixed known-good names. -/
theorem validator_fixed_lists :
    is_valid_company_name "e account" = false ∧
      is_valid_company_name "Hiring Companies" = false ∧
      is_valid_company_name "sign inorcreate an account" = false ∧
      is_valid_company_name "Google" = true ∧
      is_valid_company_name "Palo Alto Networks" = true ∧
      is_valid_company_name "North Point Technology, LLC" = true := by
  decide

/-- Claim C9 (counterexample): no single cleaner behaves as claimed —
`_clean_company_name` keeps the parenthetical and the leading article that the
claim says are stripped, and the entity extractor's `clean_company_name`
returns the length-1 string "A" where the claim requires null. -/
theorem clean_contract_counterexample :
    clean_company_name_v3 "The Acme (Security) Inc." = some "The Acme (Security)" ∧
      cleanSpec "The Acme (Security) Inc." = some "Acme" ∧
      clean_company_name_v3 "The Acme (Security) Inc." ≠
        cleanSpec "The Acme (Security) Inc." ∧
      clean_company_name "A" = "A" := by
  decide

/-- Claim C9 (amended): the discovery engine's `_clean_company_name` strips
one trailing legal suffix plus surrounding whitespace and returns null exactly
when at most one character remains — never stripping parentheticals, interior
whitespace or articles — while the entity extractor's `clean_company_name`
strips suffixes, trailing parentheticals, whitespace and a leading article but
always returns a string. -/
theorem clean_two_functions_amended :
    (∀ s : String,
        match clean_company_name_v3 s with
        | some t => 1 < t.length ∧ t = (⟨v3CleanCore s⟩ : String)
        | none => (v3CleanCore s).length ≤ 1) ∧
      clean_company_name_v3 "The Acme (Security) Inc." = some "The Acme (Security)" ∧
      clean_company_name "The Acme (Security) Inc." = "Acme" ∧
      clean_company_name "A" = "A" := by
  refine ⟨fun s => ?_, by decide, by decide, by decide⟩
  by_cases h : 1 < (v3CleanCore s).length
  · have e : clean_company_name_v3 s = some ⟨v3CleanCore s⟩ := by
      unfold clean_company_name_v3; exact if_pos h
    rw [e]
    exact ⟨h, rfl⟩
  · have e : clean_company_name_v3 s = none := by
      unfold clean_company_name_v3; exact if_neg h
    rw [e]
    show (v3CleanCore s).length ≤ 1
    omega

theorem wdStep_discovered_le (env : Net) (st : WdState) (name : String) :
    (wdStep env st name).discovered.length ≤ st.discovered.length + 1 := by
  unfold wdStep
  by_cases hs : (wdSlug name).data.isEmpty
  · rw [if_pos hs]; omega
  · rw [if_neg hs]
    cases h : wdFindJob env (wdUrls (wdSlug name)) with
    | none =>
      show st.discovered.length ≤ st.discovered.length + 1
      omega
    | some j =>
      by_cases hd : name ∈ st.discovered
      · simp [hd]
      · simp [hd]

theorem wdLoop_budget (env : Net) (m : Nat) :
    ∀ (seeds : List String) (st : WdState),
      st.discovered.length ≤ m → (wdLoop env m seeds st).discovered.length ≤ m := by
  intro seeds
  induction seeds with
  | nil => intro st h; exact h
  | cons c cs ih =>
    intro st h
    simp only [wdLoop]
    split
    · exact h
    · have hlt : st.discovered.length < m := by omega
      exact ih (wdStep env st c) (by have := wdStep_discovered_le env st c; omega)

/-- Claim C6: for every network, every budget `m` and every starting registry
(hence every seed list), the Workday ATS-Direct-Probe adapter discovers at
most `m` company keys. -/
theorem workday_budget_cap (env : Net) (m : Nat) (reg : Registry) :
    (scrape_workday_direct env m reg).discovered.length ≤ m := by
  unfold scrape_workday_direct
  exact wdLoop_budget env m _ _ (by simp)

theorem vcPageLoop_all_non200 (env : Net) (m : Nat)
    (hE : ∀ u r, env u = some r → r.status ≠ 200) :
    ∀ (ports : List (String × String)) (d : List String), vcPageLoop env m ports d = d := by
  intro ports
  induction ports with
  | nil => intro d; rfl
  | cons p rest ih =>
    intro d
    obtain ⟨nm, url⟩ := p
    simp only [vcPageLoop]
    split
    · rfl
    · cases h : env url with
      | none => exact ih d
      | some r =>
        have : r.status ≠ 200 := hE url r h
        simp [this, ih d]

theorem rssFeedLoop_all_non200 (env : Net) (target : Nat)
    (hE : ∀ u r, env u = some r → r.status ≠ 200) :
    ∀ (pubs : List (String × String)) (posts : Nat) (reg : Registry),
      rssFeedLoop env target pubs posts reg = (posts, reg) := by
  intro pubs
  induction pubs with
  | nil => intro posts reg; rfl
  | cons p rest ih =>
    intro posts reg
    obtain ⟨pub, url⟩ := p
    simp only [rssFeedLoop]
    split
    · rfl
    · cases h : env url with
      | none => exact ih posts reg
      | some r =>
        have : r.status ≠ 200 := hE url r h
        simp [this, ih posts reg]

theorem wdFindJob_all_non200 (env : Net)
    (hE : ∀ u r, env u = some r → r.status ≠ 200) :
    ∀ urls : List String, wdFindJob env urls = none := by
  intro urls
  induction urls with
  | nil => rfl
  | cons u rest ih =>
    simp only [wdFindJob]
    split
    · exact ih
    · rename_i r heq
      have hcond : ¬(r.status = 200 ∧ containsSub (lowerS r.finalUrl) "workday" = true) := by
        rintro ⟨hx, _⟩; exact hE u r heq hx
      rw [if_neg hcond]
      exact ih

theorem wdLoop_all_non200 (env : Net) (m : Nat)
    (hE : ∀ u r, env u = some r → r.status ≠ 200) :
    ∀ (seeds : List String) (st : WdState), wdLoop env m seeds st = st := by
  intro seeds
  induction seeds with
  | nil => intro st; rfl
  | cons c cs ih =>
    intro st
    simp only [wdLoop]
    split
    · rfl
    · have hstep : wdStep env st c = st := by
        unfold wdStep
        by_cases hs : (wdSlug c).data.isEmpty
        · rw [if_pos hs]
        · rw [if_neg hs, wdFindJob_all_non200 env hE]
      rw [hstep, ih st]

/-- Claim C7: if every fetch comes back with a non-200 status, each modelled
HTTP adapter (Portfolio-List, RSS Conversation, Workday Direct-Probe) returns
normally with an empty result and appends nothing to the registry. -/
theorem adapters_resilient_to_all_non200 (env : Net) (m target : Nat)
    (ports pubs : List (String × String)) (reg : Registry)
    (hE : ∀ u r, env u = some r → r.status ≠ 200) :
    scrape_vc_portfolios env m ports reg = ([], reg) ∧
      discover_conversation_signals env target pubs reg = (0, reg) ∧
      scrape_workday_direct env m reg = { discovered := [], companies := reg } := by
  refine ⟨?_, ?_, ?_⟩
  · unfold scrape_vc_portfolios
    rw [vcPageLoop_all_non200 env m hE]
  · unfold discover_conversation_signals
    rw [rssFeedLoop_all_non200 env target hE]
  · unfold scrape_workday_direct
    rw [wdLoop_all_non200 env m hE]

theorem adapters_resilient_witness :
    scrape_vc_portfolios env500 200 vcPortsDemo [] = ([], []) ∧
      discover_conversation_signals env500 50
          [("Cisco Security", "https://blogs.cisco.com/security/feed")] [] = (0, []) ∧
      scrape_workday_direct env500 200 [] = { discovered := [], companies := [] } :=
  adapters_resilient_to_all_non200 env500 200 50 vcPortsDemo
    [("Cisco Security", "https://blogs.cisco.com/security/feed")] []
    (fun u r h => by
      have : r = { status := 500, finalUrl := "https://err.example/", anchors := [],
                   containerTexts := [], jobLinks := [], items := [] } :=
        (Option.some.inj h).symm
      rw [this]
      decide)

/-! ### Claim C4: idempotence of `normalize_company_name`

The substitutions strip at most one trailing suffix per application, so
stacked suffixes defeat idempotence; the amended statement proves idempotence
whenever the normalized form is already substitution-free.  The lemmas below
establish that the image of `normalize_company_name` is lowercase, edge-clean
and whitespace-collapsed. -/

theorem lookup_map_snd :
    ∀ (l : List (Char × Char)) (c d : Char), l.lookup c = some d → d ∈ l.map Prod.snd := by
  intro l
  induction l with
  | nil => intro c d h; simp [List.lookup] at h
  | cons p l ih =>
    intro c d h
    obtain ⟨k, v⟩ := p
    cases hk : c == k with
    | true =>
      simp only [List.lookup, hk] at h
      simp [← Option.some.inj h]
    | false =>
      simp only [List.lookup, hk] at h
      exact List.mem_cons_of_mem _ (ih c d h)

theorem lowerChar_idem (c : Char) : lowerChar (lowerChar c) = lowerChar c := by
  cases h : upLow.lookup c with
  | none =>
    have h1 : lowerChar c = c := by unfold lowerChar; rw [h]
    rw [h1]
    exact h1
  | some d =>
    have h1 : lowerChar c = d := by unfold lowerChar; rw [h]
    have hd : d ∈ upLow.map Prod.snd := lookup_map_snd upLow c d h
    have hnone : ∀ x ∈ upLow.map Prod.snd, upLow.lookup x = none := by decide
    have h2 : lowerChar d = d := by unfold lowerChar; rw [hnone d hd]
    rw [h1, h2]

theorem allLower_lowerL (s : List Char) : AllLower (lowerL s) := by
  intro c hc
  rcases List.mem_map.mp hc with ⟨a, _, rfl⟩
  exact lowerChar_idem a

theorem lowerL_eq_self (s : List Char) (h : AllLower s) : lowerL s = s := by
  induction s with
  | nil => rfl
  | cons c s ih =>
    have hc := h c (List.mem_cons_self _ _)
    have hs : AllLower s := fun x hx => h x (List.mem_cons_of_mem _ hx)
    simp only [lowerL, List.map_cons, hc]
    rw [show List.map lowerChar s = lowerL s from rfl, ih hs]

theorem dropWhile_mem (p : Char → Bool) :
    ∀ (l : List Char), ∀ c ∈ l.dropWhile p, c ∈ l := by
  intro l
  induction l with
  | nil => simp
  | cons a l ih =>
    intro c hc
    rw [List.dropWhile_cons] at hc
    by_cases ha : p a
    · rw [if_pos ha] at hc
      exact List.mem_cons_of_mem _ (ih c hc)
    · rw [if_neg ha] at hc
      exact hc

theorem stripL_subset (s : List Char) : ∀ c ∈ stripL s, c ∈ s := by
  intro c hc
  unfold stripL at hc
  have h1 := List.mem_reverse.mp hc
  have h2 := dropWhile_mem isPySpace _ c h1
  have h3 := List.mem_reverse.mp h2
  exact dropWhile_mem isPySpace _ c h3

theorem altsFind_drop :
    ∀ (alts : List (List Char)) (r rest : List Char),
      altsFind alts r = some rest → ∃ n, rest = r.drop n := by
  intro alts
  induction alts with
  | nil => intro r rest h; simp [altsFind] at h
  | cons alt alts ih =>
    intro r rest h
    simp only [altsFind] at h
    by_cases hs : listStartsWithCI alt.reverse r = true
    · rw [if_pos hs] at h
      cases hd : r.drop alt.length with
      | nil => simp only [hd] at h; exact ih r rest h
      | cons c rest2 =>
        simp only [hd] at h
        by_cases hw : isPySpace c = true
        · rw [if_pos hw] at h
          exact ⟨alt.length, by rw [hd]; exact (Option.some.inj h).symm⟩
        · rw [if_neg hw] at h; exact ih r rest h
    · rw [if_neg hs] at h; exact ih r rest h

theorem stripOneSuffix_subset (alts : List (List Char)) (s : List Char) :
    ∀ c ∈ stripOneSuffix alts s, c ∈ s := by
  intro c hc
  unfold stripOneSuffix at hc
  cases h : altsFind alts s.reverse with
  | none => rw [h] at hc; exact hc
  | some rest =>
    rw [h] at hc
    obtain ⟨n, rfl⟩ := altsFind_drop alts s.reverse rest h
    have h1 := List.mem_reverse.mp hc
    have h2 := dropWhile_mem isPySpace _ c h1
    have h3 : c ∈ s.reverse := List.drop_subset _ _ h2
    exact List.mem_reverse.mp h3

theorem stripParenAux_subset :
    ∀ (l pre res : List Char), stripParenAux pre l = some res →
      ∀ c ∈ res, c ∈ pre ∨ c ∈ l := by
  intro l
  induction l with
  | nil => intro pre res h; simp [stripParenAux] at h
  | cons a l ih =>
    intro pre res h c hc
    by_cases hcond : parenCutHere a pre l = true
    · simp only [stripParenAux] at h
      rw [if_pos hcond] at h
      have hres : res = (pre.dropWhile isPySpace).reverse := (Option.some.inj h).symm
      subst hres
      exact Or.inl (dropWhile_mem isPySpace pre c (List.mem_reverse.mp hc))
    · simp only [stripParenAux] at h
      rw [if_neg hcond] at h
      rcases ih (a :: pre) res h c hc with h2 | h2
      · rcases List.mem_cons.mp h2 with rfl | h3
        · exact Or.inr (List.mem_cons_self _ _)
        · exact Or.inl h3
      · exact Or.inr (List.mem_cons_of_mem _ h2)

theorem stripParen_subset (s : List Char) : ∀ c ∈ stripParen s, c ∈ s := by
  intro c hc
  unfold stripParen at hc
  cases h : stripParenAux [] s with
  | none => rw [h] at hc; exact hc
  | some res =>
    rw [h] at hc
    rcases stripParenAux_subset s [] res h c hc with h2 | h2
    · simp at h2
    · exact h2

theorem splitWsAux_mem_chars :
    ∀ (s acc w : List Char), w ∈ splitWsAux s acc → ∀ c ∈ w, c ∈ s ∨ c ∈ acc := by
  intro s
  induction s with
  | nil =>
    intro acc w hw c hc
    by_cases h : acc.isEmpty
    · simp [splitWsAux, h] at hw
    · simp only [splitWsAux, h, Bool.false_eq_true, if_false, List.mem_singleton] at hw
      subst hw
      exact Or.inr (List.mem_reverse.mp hc)
  | cons a s ih =>
    intro acc w hw c hc
    by_cases ha : isPySpace a = true
    · by_cases h : acc.isEmpty
      · simp only [splitWsAux, ha, if_true, h] at hw
        rcases ih [] w hw c hc with h2 | h2
        · exact Or.inl (List.mem_cons_of_mem _ h2)
        · simp at h2
      · simp only [splitWsAux, ha, if_true, h, Bool.false_eq_true, if_false,
          List.mem_cons] at hw
        rcases hw with rfl | hw
        · exact Or.inr (List.mem_reverse.mp hc)
        · rcases ih [] w hw c hc with h2 | h2
          · exact Or.inl (List.mem_cons_of_mem _ h2)
          · simp at h2
    · simp only [splitWsAux, ha, Bool.false_eq_true, if_false] at hw
      rcases ih (a :: acc) w hw c hc with h2 | h2
      · exact Or.inl (List.mem_cons_of_mem _ h2)
      · rcases List.mem_cons.mp h2 with rfl | h3
        · exact Or.inl (List.mem_cons_self _ _)
        · exact Or.inr h3

theorem mem_joinWords :
    ∀ (L : List (List Char)) (c : Char), c ∈ joinWords L → c = ' ' ∨ ∃ w ∈ L, c ∈ w := by
  intro L
  induction L with
  | nil => intro c hc; simp [joinWords] at hc
  | cons w L ih =>
    intro c hc
    cases L with
    | nil =>
      rw [show joinWords [w] = w from rfl] at hc
      exact Or.inr ⟨w, List.mem_cons_self _ _, hc⟩
    | cons l L2 =>
      rw [show joinWords (w :: l :: L2) = w ++ ' ' :: joinWords (l :: L2) from rfl] at hc
      rcases List.mem_append.mp hc with h | h
      · exact Or.inr ⟨w, List.mem_cons_self _ _, h⟩
      · rcases List.mem_cons.mp h with rfl | h2
        · exact Or.inl rfl
        · rcases ih c h2 with h3 | ⟨w2, hw2, hc2⟩
          · exact Or.inl h3
          · exact Or.inr ⟨w2, List.mem_cons_of_mem _ hw2, hc2⟩

theorem allLower_collapseL (s : List Char) (h : AllLower s) : AllLower (collapseL s) := by
  intro c hc
  unfold collapseL at hc
  rcases mem_joinWords _ c hc with rfl | ⟨w, hw, hcw⟩
  · decide
  · rcases splitWsAux_mem_chars s [] w hw c hcw with h2 | h2
    · exact h c h2
    · simp at h2

theorem splitWsAux_wordsOK :
    ∀ (s acc : List Char), (∀ c ∈ acc, isPySpace c = false) →
      WordsOK (splitWsAux s acc) := by
  intro s
  induction s with
  | nil =>
    intro acc hacc w hw
    by_cases h : acc.isEmpty
    · simp [splitWsAux, h] at hw
    · simp only [splitWsAux, h, Bool.false_eq_true, if_false, List.mem_singleton] at hw
      subst hw
      refine ⟨by simpa [List.reverse_eq_nil_iff] using (by simpa [List.isEmpty_iff] using h), ?_⟩
      intro c hc
      exact hacc c (List.mem_reverse.mp hc)
  | cons a s ih =>
    intro acc hacc w hw
    by_cases ha : isPySpace a = true
    · by_cases h : acc.isEmpty
      · simp only [splitWsAux, ha, if_true, h] at hw
        exact ih [] (by simp) w hw
      · simp only [splitWsAux, ha, if_true, h, Bool.false_eq_true, if_false,
          List.mem_cons] at hw
        rcases hw with rfl | hw
        · refine ⟨by simpa [List.reverse_eq_nil_iff] using (by simpa [List.isEmpty_iff] using h), ?_⟩
          intro c hc
          exact hacc c (List.mem_reverse.mp hc)
        · exact ih [] (by simp) w hw
    · simp only [splitWsAux, ha, Bool.false_eq_true, if_false] at hw
      refine ih (a :: acc) ?_ w hw
      intro c hc
      rcases List.mem_cons.mp hc with rfl | h2
      · simpa using ha
      · exact hacc c h2

theorem splitWsAux_append_word :
    ∀ (w rest acc : List Char), (∀ c ∈ w, isPySpace c = false) →
      splitWsAux (w ++ rest) acc = splitWsAux rest (w.reverse ++ acc) := by
  intro w
  induction w with
  | nil => intro rest acc _; simp
  | cons c w ih =>
    intro rest acc hw
    have hc : isPySpace c = false := hw c (List.mem_cons_self _ _)
    show splitWsAux (c :: (w ++ rest)) acc = _
    simp only [splitWsAux, hc, Bool.false_eq_true, if_false]
    rw [ih rest (c :: acc) (fun x hx => hw x (List.mem_cons_of_mem _ hx))]
    simp [List.reverse_cons, List.append_assoc]

theorem splitWs_joinWords :
    ∀ (L : List (List Char)), WordsOK L → splitWs (joinWords L) = L := by
  intro L
  induction L with
  | nil => intro _; rfl
  | cons w L ih =>
    intro h
    have hw := h w (List.mem_cons_self _ _)
    have hwrev : (w.reverse ++ []).isEmpty = false := by
      simp [List.isEmpty_iff, List.reverse_eq_nil_iff]
      exact hw.1
    cases L with
    | nil =>
      show splitWsAux (joinWords [w]) [] = [w]
      rw [show joinWords [w] = w ++ [] by simp [joinWords]]
      rw [splitWsAux_append_word w [] [] hw.2]
      simp only [splitWsAux, hwrev, Bool.false_eq_true, if_false]
      simp
    | cons l L2 =>
      have hrest : WordsOK (l :: L2) := fun x hx => h x (List.mem_cons_of_mem _ hx)
      show splitWsAux (joinWords (w :: l :: L2)) [] = w :: l :: L2
      rw [show joinWords (w :: l :: L2) = w ++ ' ' :: joinWords (l :: L2) from rfl]
      rw [splitWsAux_append_word w _ [] hw.2]
      have hsp : isPySpace ' ' = true := by decide
      simp only [splitWsAux, hsp, if_true, hwrev, Bool.false_eq_true, if_false]
      rw [show splitWsAux (joinWords (l :: L2)) [] = splitWs (joinWords (l :: L2)) from rfl]
      rw [ih hrest]
      simp

theorem joinWords_ne_nil (w : List Char) (L : List (List Char)) (hw : w ≠ []) :
    joinWords (w :: L) ≠ [] := by
  cases L with
  | nil => simpa [joinWords] using hw
  | cons l L2 =>
    rw [show joinWords (w :: l :: L2) = w ++ ' ' :: joinWords (l :: L2) from rfl]
    simp

theorem joinWords_head_not_space (L : List (List Char)) (h : WordsOK L) :
    ∀ c t, joinWords L = c :: t → isPySpace c = false := by
  cases L with
  | nil => intro c t h2; simp [joinWords] at h2
  | cons w L2 =>
    intro c t h2
    have hw := h w (List.mem_cons_self _ _)
    cases hww : w with
    | nil => exact absurd hww hw.1
    | cons a w2 =>
      have hc : c = a := by
        cases L2 with
        | nil =>
          rw [show joinWords [w] = w from rfl, hww] at h2
          exact (List.cons.inj h2.symm).1
        | cons l L3 =>
          rw [show joinWords (w :: l :: L3) = w ++ ' ' :: joinWords (l :: L3) from rfl,
            hww] at h2
          exact (List.cons.inj h2.symm).1
      subst hc
      exact hw.2 c (by rw [hww]; exact List.mem_cons_self _ _)

theorem joinWords_reverse_head :
    ∀ (L : List (List Char)), WordsOK L → L ≠ [] →
      ∃ c t, (joinWords L).reverse = c :: t ∧ isPySpace c = false := by
  intro L
  induction L with
  | nil => intro _ hne; exact absurd rfl hne
  | cons w L ih =>
    intro h _
    have hw := h w (List.mem_cons_self _ _)
    cases L with
    | nil =>
      obtain ⟨c, t, hct⟩ : ∃ c t, w.reverse = c :: t := by
        cases hrev : w.reverse with
        | nil => exact absurd (by simpa using hrev) hw.1
        | cons c t => exact ⟨c, t, rfl⟩
      refine ⟨c, t, by rw [show joinWords [w] = w from rfl]; exact hct, ?_⟩
      have hcw : c ∈ w := List.mem_reverse.mp (by rw [hct]; exact List.mem_cons_self _ _)
      exact hw.2 c hcw
    | cons l L2 =>
      have hrest : WordsOK (l :: L2) := fun x hx => h x (List.mem_cons_of_mem _ hx)
      obtain ⟨c, t, hct, hc⟩ := ih hrest (by simp)
      refine ⟨c, t ++ ' ' :: w.reverse, ?_, hc⟩
      rw [show joinWords (w :: l :: L2) = w ++ ' ' :: joinWords (l :: L2) from rfl]
      rw [List.reverse_append, List.reverse_cons, hct]
      simp

theorem stripL_joinWords (L : List (List Char)) (h : WordsOK L) :
    stripL (joinWords L) = joinWords L := by
  cases L with
  | nil => rfl
  | cons w L2 =>
    have hw := h w (List.mem_cons_self _ _)
    obtain ⟨a, s0, hhead⟩ : ∃ a s0, joinWords (w :: L2) = a :: s0 := by
      cases hj : joinWords (w :: L2) with
      | nil => exact absurd hj (joinWords_ne_nil w L2 hw.1)
      | cons a s0 => exact ⟨a, s0, rfl⟩
    have ha : isPySpace a = false := joinWords_head_not_space _ h a s0 hhead
    obtain ⟨c, t, hct, hc⟩ := joinWords_reverse_head (w :: L2) h (by simp)
    unfold stripL
    rw [hhead, List.dropWhile_cons, if_neg (by simp [ha]), ← hhead, hct,
      List.dropWhile_cons, if_neg (by simp [hc]), ← hct, List.reverse_reverse]

theorem collapseL_collapseL (s : List Char) : collapseL (collapseL s) = collapseL s := by
  show joinWords (splitWs (joinWords (splitWs s))) = joinWords (splitWs s)
  rw [splitWs_joinWords (splitWs s) (splitWsAux_wordsOK s [] (by simp))]

/-- Claim C4 (counterexample): normalize is not idempotent — each application
strips one trailing legal suffix, so "Acme Co Inc" normalizes to "acme co",
which normalizes further to "acme". -/
theorem normalize_idempotent_counterexample :
    normalize_company_name "Acme Co Inc" = "acme co" ∧
      normalize_company_name (normalize_company_name "Acme Co Inc") = "acme" ∧
      normalize_company_name (normalize_company_name "Acme Co Inc") ≠
        normalize_company_name "Acme Co Inc" := by
  decide

/-- Claim C4 (amended): `normalize(normalize(x)) = normalize(x)` holds for
every input whose normalized form is already free of a further trailing legal
suffix or parenthetical annotation, i.e. whenever the two substitutions leave
`normalize(x)` unchanged; stacked suffixes such as "Acme Co Inc" defeat plain
idempotence. -/
theorem normalize_idempotent_amended (x : String)
    (h1 : eeStripSuffix (normalize_company_name x) = normalize_company_name x)
    (h2 : eeStripParen (normalize_company_name x) = normalize_company_name x) :
    normalize_company_name (normalize_company_name x) = normalize_company_name x := by
  have hdata : (normalize_company_name x).data =
      collapseL (stripParen (stripOneSuffix eeSuffixAlts (stripL (lowerL x.data)))) := rfl
  have hAL : AllLower (normalize_company_name x).data := by
    rw [hdata]
    apply allLower_collapseL
    intro c hc
    have hc2 := stripParen_subset _ c hc
    have hc3 := stripOneSuffix_subset eeSuffixAlts _ c hc2
    have hc4 := stripL_subset _ c hc3
    exact allLower_lowerL x.data c hc4
  have hlow : lowerL (normalize_company_name x).data = (normalize_company_name x).data :=
    lowerL_eq_self _ hAL
  have hstrip : stripL (normalize_company_name x).data = (normalize_company_name x).data := by
    rw [hdata]
    exact stripL_joinWords _ (splitWsAux_wordsOK _ [] (by simp))
  have h1d : stripOneSuffix eeSuffixAlts (normalize_company_name x).data =
      (normalize_company_name x).data := congrArg String.data h1
  have h2d : stripParen (normalize_company_name x).data = (normalize_company_name x).data :=
    congrArg String.data h2
  have hcol : collapseL (normalize_company_name x).data = (normalize_company_name x).data := by
    rw [hdata]
    exact collapseL_collapseL _
  show (⟨collapseL (stripParen (stripOneSuffix eeSuffixAlts
      (stripL (lowerL (normalize_company_name x).data))))⟩ : String) = normalize_company_name x
  rw [hlow, hstrip, h1d, h2d, hcol]

theorem normalize_idempotent_witness :
    normalize_company_name (normalize_company_name "Google Inc.") =
      normalize_company_name "Google Inc." :=
  normalize_idempotent_amended "Google Inc." (by decide) (by decide)

end SaasSignal
